import Mathlib

/-!
Verification of the schnopdih local browsing-data subsystem (src/main.py):
bookmark / history / session / download stores with JSON persistence and the
debounced omnibox suggestion engine.

Python strings are modelled as `List Char` (`PStr`); Python's dynamic values
(results of `json.load`) as the inductive `PyVal`; operations that can raise
a Python exception return `Except PyErr _`.
-/

/-- Python `str` modelled as a list of characters. -/
abbrev PStr := List Char

/-- Shorthand turning a Lean string literal into a `PStr`. -/
def pstr (s : String) : PStr := s.toList

/-- Python `str.lower()` (per-character lowercasing). -/
def pyLower (s : PStr) : PStr := s.map Char.toLower

/-- Helper for substring search: does `hay` start with `needle`? -/
def startsWithSeq : PStr → PStr → Bool
  | [], _ => true
  | _ :: _, [] => false
  | a :: as, b :: bs => a == b && startsWithSeq as bs

/-- Python's `needle in hay` substring test on strings. -/
def containsSeq (needle : PStr) : PStr → Bool
  | [] => startsWithSeq needle []
  | c :: rest => startsWithSeq needle (c :: rest) || containsSeq needle rest

/-- Characters allowed in a URL scheme by `urllib.parse` (`scheme_chars`). -/
def isSchemeChar (c : Char) : Bool :=
  c.isAlpha || c.isDigit || c == '+' || c == '-' || c == '.'

/-- Model of `urlparse(url).scheme` being non-empty: the text before the first
`:` is non-empty, starts with an ASCII letter, and uses only scheme characters. -/
def hasScheme (url : PStr) : Bool :=
  match url.findIdx? (fun c => c == ':') with
  | some i =>
      decide (0 < i) && (url.take i).all isSchemeChar &&
        (match url.head? with
         | some c => c.isAlpha
         | none => false)
  | none => false

/-- URL normalization inside `BookmarkManager.add`: scheme-less host-like
strings (contain a dot, no space) get an `http://` prefix. -/
def normalizeUrl (url : PStr) : PStr :=
  if hasScheme url then url
  else if url.contains '.' && !url.contains ' ' then pstr "http://" ++ url
  else url

/-- Bookmark entry, as produced by `BookmarkManager.add` / loaded from a
well-formed bookmarks file: `{"title", "url", "created"}` plus the optional
`"updated"` stamp written by `update`. -/
structure Bookmark where
  title : PStr
  url : PStr
  created : PStr
  updated : Option PStr
deriving DecidableEq, Repr

/-- `BookmarkManager.add(title, url)`: no-op on empty url; normalizes the url;
no-op if the normalized url is already present; otherwise prepends a new entry
(title falls back to the url when empty). `now` stands for `_now_iso()`. -/
def bmAdd (l : List Bookmark) (title url now : PStr) : List Bookmark :=
  if url = [] then l
  else
    let u' := normalizeUrl url
    if l.any (fun b => b.url == u') then l
    else ⟨if title = [] then u' else title, u', now, none⟩ :: l

/-- `BookmarkManager.remove(url)`: keeps exactly the entries whose url differs. -/
def bmRemove (l : List Bookmark) (url : PStr) : List Bookmark :=
  l.filter (fun b => !(b.url == url))

/-- `BookmarkManager.update(old_url, new_title, new_url)`: the first entry whose
url equals `old_url` gets its title/url replaced in place (title falling back
to `new_url` when `new_title` is empty) and an `updated` stamp; the loop breaks
after the first match. -/
def bmUpdate : List Bookmark → PStr → PStr → PStr → PStr → List Bookmark
  | [], _, _, _, _ => []
  | b :: rest, old, newT, newU, now =>
    if b.url == old then
      { b with title := if newT = [] then newU else newT, url := newU, updated := some now } :: rest
    else b :: bmUpdate rest old newT newU now

/-- `BookmarkManager.exists(url)`. -/
def bmExistsUrl (l : List Bookmark) (url : PStr) : Bool :=
  if url = [] then false else l.any (fun b => b.url == url)

/-- Score of one bookmark against a lowercased query, from
`BookmarkManager.search`: `(ql in t) * 2 + (ql in u)`. -/
def bmScore (ql : PStr) (b : Bookmark) : Nat :=
  (if containsSeq ql (pyLower b.title) then 1 else 0) * 2 +
    (if containsSeq ql (pyLower b.url) then 1 else 0)

/-- Stable insertion step for sorting score-entry pairs by descending score:
the new element passes every element with a strictly greater score and lands
before the first element whose score is not greater. -/
def insertDescAux {α : Type} (x : Nat × α) : List (Nat × α) → List (Nat × α)
  | [] => [x]
  | y :: ys => if x.1 < y.1 then y :: insertDescAux x ys else x :: y :: ys

/-- Model of Python's stable `scored.sort(key=lambda x: -x[0])` as a stable
insertion sort by descending first component. -/
def sortDesc {α : Type} (l : List (Nat × α)) : List (Nat × α) :=
  l.foldr insertDescAux []

/-- `BookmarkManager.search(q, limit)`: empty lowercased query takes the first
`limit` entries; otherwise entries with non-zero score are collected in store
order, stably sorted by descending score, projected, and truncated. -/
def bmSearch (l : List Bookmark) (q : PStr) (limit : Nat) : List Bookmark :=
  if pyLower q = [] then l.take limit
  else
    ((sortDesc (l.filterMap (fun b =>
      if bmScore (pyLower q) b ≠ 0 then some (bmScore (pyLower q) b, b) else none))).map
        Prod.snd).take limit

/-- Reference definition of bookmark search, written from the specification's
words: empty query takes the first `limit` entries in store order; otherwise
keep exactly the entries with non-zero score and order them by descending
score with ties in original store order (rendered as the concatenation of the
score-3, score-2 and score-1 groups, each in store order), truncated to
`limit`. -/
def bmSearchSpec (l : List Bookmark) (q : PStr) (limit : Nat) : List Bookmark :=
  if q = [] then l.take limit
  else
    (((l.filter (fun b => bmScore (pyLower q) b != 0)).filter
        (fun b => bmScore (pyLower q) b == 3)) ++
      ((l.filter (fun b => bmScore (pyLower q) b != 0)).filter
        (fun b => bmScore (pyLower q) b == 2)) ++
      ((l.filter (fun b => bmScore (pyLower q) b != 0)).filter
        (fun b => bmScore (pyLower q) b == 1))).take limit

/-- History entry `{"title", "url", "time"}`. -/
structure HEntry where
  title : PStr
  url : PStr
  time : PStr
deriving DecidableEq, Repr

/-- Entry built by `HistoryManager.add` from a `(title, url, now)` input
(title falls back to the url when empty). -/
def mkHEntry (x : PStr × PStr × PStr) : HEntry :=
  ⟨if x.1 = [] then x.2.1 else x.1, x.2.1, x.2.2⟩

/-- `HistoryManager.add(title, url)`: prepend the new entry and truncate the
list to its 5000 most recent entries. -/
def histAdd (l : List HEntry) (title url now : PStr) : List HEntry :=
  (mkHEntry (title, url, now) :: l).take 5000

/-- One `HistoryManager.add` call on a bundled `(title, url, now)` input. -/
def histAddStep (l : List HEntry) (x : PStr × PStr × PStr) : List HEntry :=
  histAdd l x.1 x.2.1 x.2.2

/-- A sequence of `HistoryManager.add` calls, oldest first. -/
def histAddAll (l : List HEntry) (xs : List (PStr × PStr × PStr)) : List HEntry :=
  xs.foldl histAddStep l

/-- Case-insensitive match of a history entry against a lowercased query:
`ql in t or ql in u`. -/
def hMatch (ql : PStr) (h : HEntry) : Bool :=
  containsSeq ql (pyLower h.title) || containsSeq ql (pyLower h.url)

/-- Scan loop of `HistoryManager.search`: walks the list most-recent-first,
stops after examining 3000 entries, collects matches, and stops once `limit`
matches have been appended. -/
def histScanLoop (ql : PStr) (limit : Nat) : List HEntry → Nat → List HEntry → List HEntry
  | [], _, res => res
  | h :: rest, scanned, res =>
    if 3000 ≤ scanned then res
    else
      if hMatch ql h then
        let res' := res ++ [h]
        if limit ≤ res'.length then res'
        else histScanLoop ql limit rest (scanned + 1) res'
      else histScanLoop ql limit rest (scanned + 1) res

/-- `HistoryManager.search(q, limit)`: empty lowercased query takes the first
`limit` entries; otherwise the capped scan loop runs and the result is
truncated to `limit` (`res[:limit]`). -/
def histSearch (l : List HEntry) (q : PStr) (limit : Nat) : List HEntry :=
  let ql := pyLower q
  if ql = [] then l.take limit
  else (histScanLoop ql limit l 0 []).take limit

/-- Whitespace characters stripped by Python's `str.strip()` (ASCII subset). -/
def pyIsSpace (c : Char) : Bool :=
  c == ' ' || c == '\t' || c == '\n' || c == '\r' || c == '\x0b' || c == '\x0c'

/-- Python `str.strip()`: drop leading and trailing whitespace. -/
def pyStrip (s : PStr) : PStr :=
  ((s.dropWhile pyIsSpace).reverse.dropWhile pyIsSpace).reverse

/-- Omnibox debounce state: the recorded pending text
(`_pending_omnibox_text`) and the single-shot timer's pending fire time
(`omnibox_timer`, absent when the timer is not armed). -/
structure OmniState where
  pending : PStr
  deadline : Option Nat
deriving DecidableEq, Repr

/-- Initial omnibox state: empty pending text, timer not armed. -/
def omniIdle : OmniState := ⟨[], none⟩

/-- Run of the omnibox subsystem over timestamped input-change events
(times in milliseconds, in event order). Each input change strips and records
the text and (re)starts the 220ms single-shot timer (`_on_omnibox_edit`); a
restart before the pending fire time supersedes the old arm. When an armed
deadline is reached, `_populate_suggestions` runs once with the recorded
text; the returned list is the texts of the suggestion populations that ran,
in order, including the final fire after the last event. -/
def runOmni : OmniState → List (Nat × PStr) → List PStr
  | s, [] =>
    (match s.deadline with
     | some _ => [s.pending]
     | none => [])
  | s, (t, txt) :: evs =>
    match s.deadline with
    | some d =>
      if d ≤ t then s.pending :: runOmni ⟨pyStrip txt, some (t + 220)⟩ evs
      else runOmni ⟨pyStrip txt, some (t + 220)⟩ evs
    | none => runOmni ⟨pyStrip txt, some (t + 220)⟩ evs

/-- Burst condition: each event arrives strictly less than 220ms after the
previous one (the first argument is the previous event's time). -/
def burstChain : Nat → List (Nat × PStr) → Bool
  | _, [] => true
  | t, (t', _) :: rest => decide (t' < t + 220) && burstChain t' rest

/-- Download record (`DownloadRecord.__init__`): engine item handle,
destination path, progress percentage, finished flag. The handle is an opaque
engine object, modelled by a type parameter. -/
structure DownloadRecord (Item : Type) where
  item : Item
  dest : PStr
  progress : Int
  finished : Bool
deriving DecidableEq, Repr

/-- `DownloadManager._finish`: marks a record finished. -/
def dmFinish {Item : Type} (d : DownloadRecord Item) : DownloadRecord Item :=
  { d with finished := true }

/-- `DownloadManager.cleanup_finished`: keep exactly the unfinished records. -/
def cleanupFinished {Item : Type} (l : List (DownloadRecord Item)) : List (DownloadRecord Item) :=
  l.filter (fun d => !d.finished)

/-- Python value as produced by `json.load` (plus `None`/`bool` for
completeness): the dynamic payload of the persistence layer. -/
inductive PyVal where
  | vNone : PyVal
  | vBool : Bool → PyVal
  | vInt : Int → PyVal
  | vStr : PStr → PyVal
  | vList : List PyVal → PyVal
  | vDict : List (PStr × PyVal) → PyVal

/-- Python exception classes observable from the modelled operations. -/
inductive PyErr where
  | attrError : PyErr
  | typeError : PyErr
deriving DecidableEq, Repr

/-- Python truthiness (`bool(v)`). -/
def pyTruthy : PyVal → Bool
  | .vNone => false
  | .vBool b => b
  | .vInt n => n != 0
  | .vStr s => !s.isEmpty
  | .vList l => !l.isEmpty
  | .vDict l => !l.isEmpty

/-- Python `v.get(key, default)`: dictionary lookup; on any non-dict value the
attribute access raises `AttributeError`. -/
def pyGetD (v : PyVal) (key : PStr) (dflt : PyVal) : Except PyErr PyVal :=
  match v with
  | .vDict kvs => .ok ((kvs.lookup key).getD dflt)
  | _ => .error .attrError

/-- Python `v == s` where `s` is a `str`: true only for an equal string. -/
def pyEqStr (v : PyVal) (s : PStr) : Bool :=
  match v with
  | .vStr t => t == s
  | _ => false

/-- Python `for x in v`: lists yield elements, strings yield one-character
strings, dicts yield keys; other values raise `TypeError`. -/
def pyIter : PyVal → Except PyErr (List PyVal)
  | .vList l => .ok l
  | .vStr s => .ok (s.map (fun c => .vStr [c]))
  | .vDict kvs => .ok (kvs.map (fun kv => .vStr kv.1))
  | _ => .error .typeError

/-- Python `(v or "").lower()` as applied to a loaded `title`/`url` field:
falsy values are replaced by the empty string, then `lower()` succeeds only
on strings and raises `AttributeError` otherwise. -/
def pyOrEmptyLower (v : PyVal) : Except PyErr PStr :=
  match (if pyTruthy v then v else .vStr []) with
  | .vStr s => .ok (pyLower s)
  | _ => .error .attrError

/-- Python `v[:n]`: slicing works on lists and strings and raises `TypeError`
elsewhere. -/
def pySliceTake (v : PyVal) (n : Nat) : Except PyErr PyVal :=
  match v with
  | .vList l => .ok (.vList (l.take n))
  | .vStr s => .ok (.vStr (s.take n))
  | _ => .error .typeError

/-- Python `d[key] = x` on a dict: replace the value of an existing key in
place, else append the new key at the end. -/
def pySet (kvs : List (PStr × PyVal)) (key : PStr) (x : PyVal) : List (PStr × PyVal) :=
  match kvs with
  | [] => [(key, x)]
  | (k, v) :: rest => if k == key then (k, x) :: rest else (k, v) :: pySet rest key x

/-- State of a store's backing file as seen by `_load_json`: absent,
unreadable (I/O error), malformed (parse error), or holding a parsed value. -/
inductive FileState where
  | missing : FileState
  | unreadable : FileState
  | malformed : FileState
  | holds : PyVal → FileState

/-- `_load_json(path, default)`: the parsed document on success; on a missing
file or any raised exception (I/O or parse failure) the default, with the
exception swallowed. -/
def loadJson (f : FileState) (dflt : PyVal) : PyVal :=
  match f with
  | .holds v => v
  | _ => dflt

/-- `BookmarkManager.__init__`: `self.bookmarks = _load_json(path, []) or []`
— the loaded value when truthy, else the empty list. -/
def bmInitDyn (f : FileState) : PyVal :=
  let v := loadJson f (.vList [])
  if pyTruthy v then v else .vList []

/-- `HistoryManager.__init__`: same load-or-empty pattern as the bookmarks. -/
def histInitDyn (f : FileState) : PyVal :=
  let v := loadJson f (.vList [])
  if pyTruthy v then v else .vList []

/-- Lazy `any(b.get("url") == u for b in items)`: stops at the first match,
propagating the `AttributeError` of a `.get` on a non-dict element. -/
def pyAnyUrlEq : List PyVal → PStr → Except PyErr Bool
  | [], _ => .ok false
  | b :: rest, u => do
    let uv ← pyGetD b (pstr "url") .vNone
    if pyEqStr uv u then .ok true else pyAnyUrlEq rest u

/-- `BookmarkManager.add` over a dynamically-shaped store: empty url is a
no-op; the normalized url is tested for presence (raising on non-dict
elements); a new entry dict is prepended via `list.insert`, which exists only
on lists. -/
def bmAddDyn (store : PyVal) (title url now : PStr) : Except PyErr PyVal :=
  if url = [] then .ok store
  else
    let u' := normalizeUrl url
    do
      let items ← pyIter store
      let dup ← pyAnyUrlEq items u'
      if dup then .ok store
      else
        let entry := PyVal.vDict
          [(pstr "title", .vStr (if title = [] then u' else title)),
           (pstr "url", .vStr u'), (pstr "created", .vStr now)]
        match store with
        | .vList l => .ok (.vList (entry :: l))
        | _ => .error .attrError

/-- Filtering loop of `BookmarkManager.remove`'s list comprehension. -/
def bmFilterNeq : List PyVal → PStr → Except PyErr (List PyVal)
  | [], _ => .ok []
  | b :: rest, u => do
    let uv ← pyGetD b (pstr "url") .vNone
    let rest' ← bmFilterNeq rest u
    .ok (if pyEqStr uv u then rest' else b :: rest')

/-- `BookmarkManager.remove` over a dynamically-shaped store: the list
comprehension rebuilds a list of the elements whose url differs. -/
def bmRemoveDyn (store : PyVal) (url : PStr) : Except PyErr PyVal := do
  let items ← pyIter store
  let kept ← bmFilterNeq items url
  .ok (.vList kept)

/-- Update loop of `BookmarkManager.update`: mutate the first element whose
url matches, then break. -/
def bmUpdLoop : List PyVal → PStr → PStr → PStr → PStr → Except PyErr (List PyVal)
  | [], _, _, _, _ => .ok []
  | b :: rest, old, newT, newU, now => do
    let uv ← pyGetD b (pstr "url") .vNone
    if pyEqStr uv old then
      match b with
      | .vDict kvs =>
        .ok (.vDict (pySet (pySet (pySet kvs (pstr "title")
          (.vStr (if newT = [] then newU else newT))) (pstr "url") (.vStr newU))
          (pstr "updated") (.vStr now)) :: rest)
      | _ => .error .typeError
    else do
      let rest' ← bmUpdLoop rest old newT newU now
      .ok (b :: rest')

/-- `BookmarkManager.update` over a dynamically-shaped store: the loop mutates
elements in place, so the store container itself is unchanged; iterating a
non-list store visits its derived items (raising on their `.get`). -/
def bmUpdateDyn (store : PyVal) (old newT newU now : PStr) : Except PyErr PyVal :=
  match store with
  | .vList l => do
    let l' ← bmUpdLoop l old newT newU now
    .ok (.vList l')
  | other => do
    let items ← pyIter other
    let _ ← bmUpdLoop items old newT newU now
    .ok other

/-- `BookmarkManager.exists` over a dynamically-shaped store. -/
def bmExistsDyn (store : PyVal) (url : PStr) : Except PyErr Bool :=
  if url = [] then .ok false
  else do
    let items ← pyIter store
    pyAnyUrlEq items url

/-- Scoring loop of `BookmarkManager.search` over dynamic elements: each
element's `title`/`url` fields are fetched (raising on non-dicts) and
lowercased (raising on truthy non-strings); non-zero scores are collected in
store order. -/
def bmScoreLoopDyn (ql : PStr) : List PyVal → Except PyErr (List (Nat × PyVal))
  | [] => .ok []
  | b :: rest => do
    let tv ← pyGetD b (pstr "title") .vNone
    let uv ← pyGetD b (pstr "url") .vNone
    let t ← pyOrEmptyLower tv
    let u ← pyOrEmptyLower uv
    let score := (if containsSeq ql t then 1 else 0) * 2 + (if containsSeq ql u then 1 else 0)
    let rest' ← bmScoreLoopDyn ql rest
    .ok (if score ≠ 0 then (score, b) :: rest' else rest')

/-- `BookmarkManager.search` over a dynamically-shaped store. -/
def bmSearchDyn (store : PyVal) (q : PStr) (limit : Nat) : Except PyErr PyVal :=
  let ql := pyLower q
  if ql = [] then pySliceTake store limit
  else do
    let items ← pyIter store
    let scored ← bmScoreLoopDyn ql items
    .ok (.vList (((sortDesc scored).map Prod.snd).take limit))

/-- `HistoryManager.add` over a dynamically-shaped store: `list.insert` exists
only on lists, then the list is truncated to 5000 entries. -/
def histAddDyn (store : PyVal) (title url now : PStr) : Except PyErr PyVal :=
  let entry := PyVal.vDict
    [(pstr "title", .vStr (if title = [] then url else title)),
     (pstr "url", .vStr url), (pstr "time", .vStr now)]
  match store with
  | .vList l => .ok (.vList ((entry :: l).take 5000))
  | _ => .error .attrError

/-- Scan loop of `HistoryManager.search` over dynamic elements. -/
def histScanLoopDyn (ql : PStr) (limit : Nat) :
    List PyVal → Nat → List PyVal → Except PyErr (List PyVal)
  | [], _, res => .ok res
  | h :: rest, scanned, res =>
    if 3000 ≤ scanned then .ok res
    else do
      let tv ← pyGetD h (pstr "title") .vNone
      let uv ← pyGetD h (pstr "url") .vNone
      let t ← pyOrEmptyLower tv
      let u ← pyOrEmptyLower uv
      if containsSeq ql t || containsSeq ql u then
        let res' := res ++ [h]
        if limit ≤ res'.length then .ok res'
        else histScanLoopDyn ql limit rest (scanned + 1) res'
      else histScanLoopDyn ql limit rest (scanned + 1) res

/-- `HistoryManager.search` over a dynamically-shaped store. -/
def histSearchDyn (store : PyVal) (q : PStr) (limit : Nat) : Except PyErr PyVal :=
  let ql := pyLower q
  if ql = [] then pySliceTake store limit
  else do
    let items ← pyIter store
    let res ← histScanLoopDyn ql limit items 0 []
    .ok (.vList (res.take limit))

/-- `SessionManager.save(tabs)`: the JSON document written to the session
file, `{"tabs": tabs, "saved": now}`. (The write itself is `_save_json`,
which swallows every error.) -/
def sessSave (tabs : List PStr) (now : PStr) : PyVal :=
  .vDict [(pstr "tabs", .vList (tabs.map .vStr)), (pstr "saved", .vStr now)]

/-- `SessionManager.restore()`: load the session file with default `None`;
falsy data yields the empty list, otherwise `data.get("tabs", [])` (raising
on truthy non-dict data). -/
def sessRestoreDyn (f : FileState) : Except PyErr PyVal :=
  let data := loadJson f .vNone
  if pyTruthy data then pyGetD data (pstr "tabs") (.vList [])
  else .ok (.vList [])

/-- Success test on a modelled Python computation: no exception was raised. -/
def exOk {α : Type} : Except PyErr α → Bool
  | .ok _ => true
  | .error _ => false

/-- Field value usable as a bookmark/history `title`/`url`: a string, or any
falsy value (which `(x or "")` replaces by the empty string). -/
def goodVal : PyVal → Bool
  | .vStr _ => true
  | v => !pyTruthy v

/-- Store element on which the managers' field accesses are total: a dict
whose `title` and `url` values (when present) are strings or falsy. -/
def goodEntry : PyVal → Bool
  | .vDict kvs =>
    goodVal ((kvs.lookup (pstr "title")).getD .vNone) &&
      goodVal ((kvs.lookup (pstr "url")).getD .vNone)
  | _ => false

/-- Well-shaped store: a list of well-shaped entry dicts. -/
def goodStore : PyVal → Bool
  | .vList l => l.all goodEntry
  | _ => false

/-- Session file whose loaded value is falsy or a dict, so `restore` is
total on it. -/
def goodSessionFile (f : FileState) : Bool :=
  match loadJson f .vNone with
  | .vDict _ => true
  | v => !pyTruthy v

/-- Uniqueness invariant of the bookmark store: pairwise-distinct urls. -/
abbrev urlsNodup (l : List Bookmark) : Prop := (l.map Bookmark.url).Nodup

/-- Number of entries of the store whose url equals `u`. -/
def countUrl (l : List Bookmark) (u : PStr) : Nat :=
  (l.filter (fun b => b.url == u)).length

/-- Truncation absorbs an inner truncation to the same length on the appended
tail. -/
theorem take_append_absorb {α : Type} (X Y : List α) (n : Nat) :
    (X ++ Y.take n).take n = (X ++ Y).take n := by
  rw [List.take_append_eq_append_take, List.take_append_eq_append_take, List.take_take,
    Nat.min_eq_left (Nat.sub_le n X.length)]

/-- Closed form of a run of `HistoryManager.add` calls starting from a store
within the bound: the inputs' entries, newest first, in front of the old
entries, truncated to 5000. -/
theorem histAddAll_eq (xs : List (PStr × PStr × PStr)) :
    ∀ h : List HEntry, h.length ≤ 5000 →
      histAddAll h xs = ((xs.map mkHEntry).reverse ++ h).take 5000 := by
  induction xs with
  | nil => intro h hle; simpa [histAddAll] using (List.take_of_length_le hle).symm
  | cons e rest ih =>
    intro h hle
    have hstep : histAddAll h (e :: rest) = histAddAll (histAddStep h e) rest := rfl
    have hlen : (histAddStep h e).length ≤ 5000 := by
      simp [histAddStep, histAdd]
    rw [hstep, ih _ hlen]
    show ((rest.map mkHEntry).reverse ++ (mkHEntry (e.1, e.2.1, e.2.2) :: h).take 5000).take 5000
      = _
    rw [take_append_absorb]
    simp

/-- C3: persistence failures degrade to defaults and are never surfaced.
`_load_json(path, default)` yields `default` on every failure mode (missing
file, unreadable file, parse error) — the exception is swallowed inside the
helper, so nothing reaches the caller (`loadJson` and the constructors are
total functions) — and both the bookmark and the history store initialize as
the empty list from any absent, unreadable or malformed backing file. -/
theorem c3_load_default (d : PyVal) :
    loadJson .missing d = d ∧ loadJson .unreadable d = d ∧ loadJson .malformed d = d ∧
    bmInitDyn .missing = .vList [] ∧ bmInitDyn .unreadable = .vList [] ∧
    bmInitDyn .malformed = .vList [] ∧ histInitDyn .missing = .vList [] ∧
    histInitDyn .unreadable = .vList [] ∧ histInitDyn .malformed = .vList [] :=
  ⟨rfl, rfl, rfl, rfl, rfl, rfl, rfl, rfl, rfl⟩

/-- C6: after every `HistoryManager.add` the history has length at most 5000
with the new entry first, and any 5001 adds starting from the empty store
(distinct urls being a special case) leave exactly the entries of the last
5000 adds, newest first — the run equals the reverse of the input list with
its first (oldest) element dropped. -/
theorem c6_history_bound :
    (∀ (l : List HEntry) (t u now : PStr),
      (histAdd l t u now).length ≤ 5000 ∧
      (histAdd l t u now).head? = some (mkHEntry (t, u, now))) ∧
    (∀ es : Fin 5001 → PStr × PStr × PStr,
      histAddAll [] (List.ofFn es) = (((List.ofFn es).drop 1).map mkHEntry).reverse) := by
  constructor
  · intro l t u now
    constructor
    · simp [histAdd]
    · rfl
  · intro es
    rw [histAddAll_eq _ [] (by simp), List.ofFn_succ]
    rw [List.map_cons, List.reverse_cons, List.append_nil, List.drop_succ_cons, List.drop_zero]
    apply List.take_left'
    rw [List.length_reverse, List.length_map, List.length_ofFn]

/-- Closed form of the history scan loop, under the final `[:limit]`
truncation: the collected matches are the matching entries among the first
`3000 - scanned` remaining ones, appended to the accumulator and cut to the
remaining budget. -/
theorem histScanLoop_take (ql : PStr) (limit : Nat) :
    ∀ (l : List HEntry) (scanned : Nat) (res : List HEntry),
      (histScanLoop ql limit l scanned res).take limit =
      (res ++ ((l.take (3000 - scanned)).filter (hMatch ql)).take (limit - res.length)).take
        limit := by
  intro l
  induction l with
  | nil => intro scanned res; simp [histScanLoop]
  | cons h t ih =>
    intro scanned res
    by_cases hsc : 3000 ≤ scanned
    · have h0 : 3000 - scanned = 0 := Nat.sub_eq_zero_of_le hsc
      simp [histScanLoop, hsc, h0]
    · have h3 : 3000 - scanned = (3000 - (scanned + 1)) + 1 := by omega
      rw [h3, List.take_succ_cons]
      by_cases hm : hMatch ql h = true
      · rw [List.filter_cons_of_pos hm]
        by_cases hlim : limit ≤ (res ++ [h]).length
        · have hL : histScanLoop ql limit (h :: t) scanned res = res ++ [h] := by
            simp only [histScanLoop]
            rw [if_neg hsc, if_pos hm, if_pos hlim]
          rw [hL, List.take_append_eq_append_take, List.take_append_eq_append_take,
            List.take_take, Nat.min_self]
          have hcase : limit - res.length = 0 ∨ limit - res.length = 1 := by
            simp only [List.length_append, List.length_cons, List.length_nil] at hlim
            omega
          rcases hcase with hc | hc
          · rw [hc]; simp
          · rw [hc]; simp
        · have hL : histScanLoop ql limit (h :: t) scanned res =
              histScanLoop ql limit t (scanned + 1) (res ++ [h]) := by
            simp only [histScanLoop]
            rw [if_neg hsc, if_pos hm, if_neg hlim]
          rw [hL, ih]
          have hk : limit - res.length = (limit - (res ++ [h]).length) + 1 := by
            simp only [List.length_append, List.length_cons, List.length_nil] at hlim ⊢
            omega
          rw [hk, List.take_succ_cons, List.append_assoc]
          rfl
      · have hL : histScanLoop ql limit (h :: t) scanned res =
            histScanLoop ql limit t (scanned + 1) res := by
          simp only [histScanLoop]
          rw [if_neg hsc, if_neg hm]
        rw [hL, ih, List.filter_cons_of_neg (by simpa using hm)]

/-- C7: for a non-empty query, `HistoryManager.search` equals the matching
entries among the 3000 most-recent history entries, in most-recent-first
order, truncated to `limit` — so a matching entry at position 3000 or later
(counting from the newest) is never part of the result, even when fewer than
`limit` matches were found among the first 3000. -/
theorem c7_history_scan_cap (l : List HEntry) (q : PStr) (limit : Nat) (hq : q ≠ []) :
    histSearch l q limit = ((l.take 3000).filter (hMatch (pyLower q))).take limit := by
  have hql : pyLower q ≠ [] := by
    simpa [pyLower, List.map_eq_nil_iff] using hq
  rw [histSearch, if_neg hql, histScanLoop_take]
  simp [List.take_take]

/-- Witness for `c7_history_scan_cap` at a concrete history, query and limit. -/
theorem c7_witness :
    (pstr "a" ≠ ([] : PStr)) ∧
    histSearch [⟨pstr "Ab", pstr "u", pstr "t"⟩, ⟨pstr "c", pstr "d", pstr "t"⟩] (pstr "a") 12 =
      (([⟨pstr "Ab", pstr "u", pstr "t"⟩, ⟨pstr "c", pstr "d", pstr "t"⟩].take 3000).filter
        (hMatch (pyLower (pstr "a")))).take 12 :=
  ⟨by decide, c7_history_scan_cap _ _ _ (by decide)⟩

/-- Unfolding equation for `bmUpdate` on a non-empty store. -/
theorem bmUpdate_cons (b : Bookmark) (rest : List Bookmark) (old newT newU now : PStr) :
    bmUpdate (b :: rest) old newT newU now =
      if b.url == old then
        { b with
          title := (if newT = [] then newU else newT)
          url := newU
          updated := some now } :: rest
      else b :: bmUpdate rest old newT newU now := rfl

/-- Replacing a matched entry's url by the very same url leaves the url list
unchanged. -/
theorem bmUpdate_map_url_self (l : List Bookmark) (old newT now : PStr) :
    (bmUpdate l old newT old now).map Bookmark.url = l.map Bookmark.url := by
  induction l with
  | nil => rfl
  | cons b rest ih =>
    by_cases hb : (b.url == old) = true
    · have hurl : b.url = old := by simpa using hb
      simp [bmUpdate, hb, hurl]
    · simp [bmUpdate, hb, ih]

/-- Every url in an updated store is the new url or an original url. -/
theorem bmUpdate_map_url_subset (l : List Bookmark) (old newT newU now : PStr) :
    ∀ x ∈ (bmUpdate l old newT newU now).map Bookmark.url,
      x = newU ∨ x ∈ l.map Bookmark.url := by
  induction l with
  | nil => intro x hx; simp [bmUpdate] at hx
  | cons b rest ih =>
    intro x hx
    by_cases hb : (b.url == old) = true
    · rw [bmUpdate_cons, if_pos hb, List.map_cons] at hx
      rcases List.mem_cons.mp hx with hx | hx
      · exact Or.inl hx
      · exact Or.inr (by rw [List.map_cons]; exact List.mem_cons_of_mem _ hx)
    · rw [bmUpdate_cons, if_neg hb, List.map_cons] at hx
      rcases List.mem_cons.mp hx with hx | hx
      · exact Or.inr (by rw [List.map_cons, hx]; exact List.mem_cons_self _ _)
      · rcases ih x hx with h | h
        · exact Or.inl h
        · exact Or.inr (by rw [List.map_cons]; exact List.mem_cons_of_mem _ h)

/-- Updating to a url not already present preserves pairwise-distinct urls. -/
theorem bmUpdate_nodup_of_not_mem (l : List Bookmark) (old newT newU now : PStr)
    (hnd : (l.map Bookmark.url).Nodup) (hnm : newU ∉ l.map Bookmark.url) :
    ((bmUpdate l old newT newU now).map Bookmark.url).Nodup := by
  induction l with
  | nil => simp [bmUpdate]
  | cons b rest ih =>
    rw [List.map_cons, List.nodup_cons] at hnd
    have hnm' : newU ∉ rest.map Bookmark.url := fun h => hnm (by simp [h])
    by_cases hb : (b.url == old) = true
    · rw [bmUpdate_cons, if_pos hb, List.map_cons, List.nodup_cons]
      exact ⟨hnm', hnd.2⟩
    · rw [bmUpdate_cons, if_neg hb, List.map_cons, List.nodup_cons]
      refine ⟨fun hmem => ?_, ih hnd.2 hnm'⟩
      rcases bmUpdate_map_url_subset rest old newT newU now _ hmem with h | h
      · exact hnm (by simp [h])
      · exact hnd.1 h

/-- C1 counterexample: a store with pairwise-distinct urls `["b", "a"]` loses
uniqueness when `update("a", "A2", "b")` rewrites the second entry's url to
the first entry's url — `update` performs no duplicate check. -/
theorem c1_counterexample :
    urlsNodup [⟨pstr "B", pstr "b", pstr "c", none⟩, ⟨pstr "A", pstr "a", pstr "c", none⟩] ∧
    ¬ urlsNodup (bmUpdate
      [⟨pstr "B", pstr "b", pstr "c", none⟩, ⟨pstr "A", pstr "a", pstr "c", none⟩]
      (pstr "a") (pstr "A2") (pstr "b") (pstr "n")) := by
  constructor
  · decide
  · intro h
    exact absurd h (by decide)

/-- C1 amended: starting from a store with pairwise-distinct urls, `add` and
`remove` always preserve uniqueness (`search` does not modify the store at
all), and `update(old, newT, newU)` preserves it provided `newU` equals
`old` or is not already a stored url; the unrestricted claim fails (see the
counterexample). -/
theorem c1_uniqueness_amended (l : List Bookmark) (t u old newT newU now : PStr)
    (hnd : urlsNodup l) (hupd : newU = old ∨ newU ∉ l.map Bookmark.url) :
    urlsNodup (bmAdd l t u now) ∧ urlsNodup (bmRemove l u) ∧
    urlsNodup (bmUpdate l old newT newU now) := by
  refine ⟨?_, ?_, ?_⟩
  · unfold bmAdd
    by_cases hu : u = []
    · simpa [hu] using hnd
    · rw [if_neg hu]
      by_cases hany : (l.any fun b => b.url == normalizeUrl u) = true
      · simpa [hany] using hnd
      · rw [if_neg hany]
        refine List.nodup_cons.mpr ⟨fun hmem => ?_, hnd⟩
        rcases List.mem_map.mp hmem with ⟨b, hbl, hbu⟩
        have hall : ∀ x ∈ l, ¬ x.url = normalizeUrl u := by simpa using hany
        exact hall b hbl (by simpa using hbu)
  · exact List.Nodup.sublist ((List.filter_sublist l).map Bookmark.url) hnd
  · rcases hupd with h | h
    · rw [h]
      show ((bmUpdate l old newT old now).map Bookmark.url).Nodup
      rw [bmUpdate_map_url_self]
      exact hnd
    · exact bmUpdate_nodup_of_not_mem l old newT newU now hnd h

/-- Witness for `c1_uniqueness_amended` on a concrete one-entry store. -/
theorem c1_witness :
    urlsNodup [⟨pstr "A", pstr "a", pstr "c", none⟩] ∧
    (pstr "a" = pstr "a" ∨
      pstr "a" ∉ [(⟨pstr "A", pstr "a", pstr "c", none⟩ : Bookmark)].map Bookmark.url) ∧
    (urlsNodup (bmAdd [⟨pstr "A", pstr "a", pstr "c", none⟩] (pstr "t") (pstr "b.c") (pstr "n")) ∧
     urlsNodup (bmRemove [⟨pstr "A", pstr "a", pstr "c", none⟩] (pstr "b.c")) ∧
     urlsNodup (bmUpdate [⟨pstr "A", pstr "a", pstr "c", none⟩]
       (pstr "a") (pstr "T") (pstr "a") (pstr "n"))) :=
  ⟨by decide, Or.inl rfl,
    c1_uniqueness_amended _ _ _ _ _ _ _ (by decide) (Or.inl rfl)⟩

/-- A computation succeeds exactly when it returns some `.ok` value. -/
theorem exOk_iff {α : Type} (x : Except PyErr α) : exOk x = true ↔ ∃ a, x = .ok a := by
  cases x <;> simp [exOk]

/-- Binding a successful computation applies the continuation. -/
theorem exBindE_ok {α β : Type} (a : α) (f : α → Except PyErr β) :
    Except.bind (.ok a) f = f a := rfl

/-- A well-shaped entry is a dict with well-shaped `title`/`url` values. -/
theorem goodEntry_dict (b : PyVal) (h : goodEntry b = true) :
    ∃ kvs, b = .vDict kvs ∧ goodVal ((kvs.lookup (pstr "title")).getD .vNone) = true ∧
      goodVal ((kvs.lookup (pstr "url")).getD .vNone) = true := by
  cases b with
  | vDict kvs =>
    have h' : goodVal ((kvs.lookup (pstr "title")).getD .vNone) = true ∧
        goodVal ((kvs.lookup (pstr "url")).getD .vNone) = true := by
      simpa [goodEntry, Bool.and_eq_true] using h
    exact ⟨kvs, rfl, h'.1, h'.2⟩
  | vNone => simp [goodEntry] at h
  | vBool b => simp [goodEntry] at h
  | vInt n => simp [goodEntry] at h
  | vStr s => simp [goodEntry] at h
  | vList l => simp [goodEntry] at h

/-- Lowercasing a well-shaped field value never raises. -/
theorem pyOrEmptyLower_okE (v : PyVal) (h : goodVal v = true) :
    ∃ s, pyOrEmptyLower v = .ok s := by
  cases v with
  | vStr s =>
    by_cases ht : pyTruthy (.vStr s) = true
    · exact ⟨pyLower s, by simp [pyOrEmptyLower, ht]⟩
    · exact ⟨pyLower [], by simp [pyOrEmptyLower, ht, pyLower]⟩
  | vNone => exact ⟨[], rfl⟩
  | vBool b =>
    cases b with
    | false => exact ⟨[], rfl⟩
    | true => exact absurd h (by decide)
  | vInt n =>
    have hn : n = 0 := by simpa [goodVal, pyTruthy] using h
    subst hn
    exact ⟨[], rfl⟩
  | vList l =>
    have hl : l.isEmpty = true := by simpa [goodVal, pyTruthy] using h
    exact ⟨[], by simp [pyOrEmptyLower, pyTruthy, hl, pyLower]⟩
  | vDict kvs =>
    have hl : kvs.isEmpty = true := by simpa [goodVal, pyTruthy] using h
    exact ⟨[], by simp [pyOrEmptyLower, pyTruthy, hl, pyLower]⟩

/-- The lazy duplicate-url test never raises on a list of well-shaped
entries. -/
theorem pyAnyUrlEq_okE (u : PStr) :
    ∀ items : List PyVal, items.all goodEntry = true → ∃ b, pyAnyUrlEq items u = .ok b := by
  intro items
  induction items with
  | nil => exact fun _ => ⟨false, rfl⟩
  | cons x rest ih =>
    intro h
    rw [List.all_cons, Bool.and_eq_true] at h
    obtain ⟨kvs, hx, _, _⟩ := goodEntry_dict x h.1
    subst hx
    have hstep : pyAnyUrlEq (.vDict kvs :: rest) u =
        if pyEqStr ((kvs.lookup (pstr "url")).getD .vNone) u then .ok true
        else pyAnyUrlEq rest u := rfl
    by_cases he : pyEqStr ((kvs.lookup (pstr "url")).getD .vNone) u = true
    · exact ⟨true, by rw [hstep, if_pos he]⟩
    · obtain ⟨b, hb⟩ := ih h.2
      exact ⟨b, by rw [hstep, if_neg he, hb]⟩

/-- The removal filter never raises on a list of well-shaped entries. -/
theorem bmFilterNeq_okE (u : PStr) :
    ∀ items : List PyVal, items.all goodEntry = true →
      ∃ kept, bmFilterNeq items u = .ok kept := by
  intro items
  induction items with
  | nil => exact fun _ => ⟨[], rfl⟩
  | cons x rest ih =>
    intro h
    rw [List.all_cons, Bool.and_eq_true] at h
    obtain ⟨kvs, hx, _, _⟩ := goodEntry_dict x h.1
    subst hx
    obtain ⟨kept, hk⟩ := ih h.2
    have hstep : bmFilterNeq (.vDict kvs :: rest) u =
        (bmFilterNeq rest u).bind (fun rest' =>
          .ok (if pyEqStr ((kvs.lookup (pstr "url")).getD .vNone) u then rest'
            else .vDict kvs :: rest')) := rfl
    refine ⟨if pyEqStr ((kvs.lookup (pstr "url")).getD .vNone) u then kept
      else .vDict kvs :: kept, ?_⟩
    rw [hstep, hk]
    rfl

/-- The update loop never raises on a list of well-shaped entries. -/
theorem bmUpdLoop_okE (old newT newU now : PStr) :
    ∀ items : List PyVal, items.all goodEntry = true →
      ∃ out, bmUpdLoop items old newT newU now = .ok out := by
  intro items
  induction items with
  | nil => exact fun _ => ⟨[], rfl⟩
  | cons x rest ih =>
    intro h
    rw [List.all_cons, Bool.and_eq_true] at h
    obtain ⟨kvs, hx, _, _⟩ := goodEntry_dict x h.1
    subst hx
    have hstep : bmUpdLoop (.vDict kvs :: rest) old newT newU now =
        if pyEqStr ((kvs.lookup (pstr "url")).getD .vNone) old then
          .ok (.vDict (pySet (pySet (pySet kvs (pstr "title")
            (.vStr (if newT = [] then newU else newT))) (pstr "url") (.vStr newU))
            (pstr "updated") (.vStr now)) :: rest)
        else (bmUpdLoop rest old newT newU now).bind (fun rest' => .ok (.vDict kvs :: rest')) :=
      rfl
    by_cases he : pyEqStr ((kvs.lookup (pstr "url")).getD .vNone) old = true
    · exact ⟨_, by rw [hstep, if_pos he]⟩
    · obtain ⟨out, ho⟩ := ih h.2
      exact ⟨.vDict kvs :: out, by rw [hstep, if_neg he, ho]; rfl⟩

/-- The search scoring loop never raises on a list of well-shaped entries. -/
theorem bmScoreLoopDyn_okE (ql : PStr) :
    ∀ items : List PyVal, items.all goodEntry = true →
      ∃ out, bmScoreLoopDyn ql items = .ok out := by
  intro items
  induction items with
  | nil => exact fun _ => ⟨[], rfl⟩
  | cons x rest ih =>
    intro h
    rw [List.all_cons, Bool.and_eq_true] at h
    obtain ⟨kvs, hx, ht, hu⟩ := goodEntry_dict x h.1
    subst hx
    obtain ⟨t, htl⟩ := pyOrEmptyLower_okE _ ht
    obtain ⟨u, hul⟩ := pyOrEmptyLower_okE _ hu
    obtain ⟨out, ho⟩ := ih h.2
    have hstep : bmScoreLoopDyn ql (.vDict kvs :: rest) =
        (pyOrEmptyLower ((kvs.lookup (pstr "title")).getD .vNone)).bind (fun t =>
          (pyOrEmptyLower ((kvs.lookup (pstr "url")).getD .vNone)).bind (fun u =>
            (bmScoreLoopDyn ql rest).bind (fun rest' =>
              .ok (if ((if containsSeq ql t then 1 else 0) * 2 +
                  (if containsSeq ql u then 1 else 0) : Nat) ≠ 0 then
                  ((if containsSeq ql t then 1 else 0) * 2 +
                    (if containsSeq ql u then 1 else 0), PyVal.vDict kvs) :: rest'
                else rest')))) := rfl
    apply (exOk_iff _).mp
    rw [hstep, htl, exBindE_ok, hul, exBindE_ok, ho, exBindE_ok]
    rfl

/-- The history scan loop never raises on a list of well-shaped entries. -/
theorem histScanLoopDyn_okE (ql : PStr) (limit : Nat) :
    ∀ items : List PyVal, items.all goodEntry = true →
      ∀ (scanned : Nat) (res : List PyVal),
        ∃ out, histScanLoopDyn ql limit items scanned res = .ok out := by
  intro items
  induction items with
  | nil => exact fun _ _ res => ⟨res, rfl⟩
  | cons x rest ih =>
    intro h scanned res
    rw [List.all_cons, Bool.and_eq_true] at h
    obtain ⟨kvs, hx, ht, hu⟩ := goodEntry_dict x h.1
    subst hx
    by_cases hsc : 3000 ≤ scanned
    · exact ⟨res, by simp only [histScanLoopDyn]; rw [if_pos hsc]⟩
    · obtain ⟨t, htl⟩ := pyOrEmptyLower_okE _ ht
      obtain ⟨u, hul⟩ := pyOrEmptyLower_okE _ hu
      have hstep : histScanLoopDyn ql limit (.vDict kvs :: rest) scanned res =
          (pyOrEmptyLower ((kvs.lookup (pstr "title")).getD .vNone)).bind (fun t =>
            (pyOrEmptyLower ((kvs.lookup (pstr "url")).getD .vNone)).bind (fun u =>
              if containsSeq ql t || containsSeq ql u then
                if limit ≤ (res ++ [PyVal.vDict kvs]).length then .ok (res ++ [.vDict kvs])
                else histScanLoopDyn ql limit rest (scanned + 1) (res ++ [.vDict kvs])
              else histScanLoopDyn ql limit rest (scanned + 1) res)) := by
        simp only [histScanLoopDyn]
        rw [if_neg hsc]
        rfl
      rw [hstep, htl, exBindE_ok, hul, exBindE_ok]
      by_cases hm : (containsSeq ql t || containsSeq ql u) = true
      · rw [if_pos hm]
        by_cases hlim : limit ≤ (res ++ [PyVal.vDict kvs]).length
        · exact ⟨res ++ [.vDict kvs], by rw [if_pos hlim]⟩
        · obtain ⟨out, ho⟩ := ih h.2 (scanned + 1) (res ++ [.vDict kvs])
          exact ⟨out, by rw [if_neg hlim, ho]⟩
      · rw [if_neg hm]
        exact ih h.2 (scanned + 1) res

/-- C2 counterexample: the backing file holds the well-formed JSON document
`[1]` (a list with a non-object element); the store initializes to it, and
`BookmarkManager.search("x")` then raises `AttributeError` (an `int` has no
`.get`) — refuting the claim that every operation returns a defined result
without raising for such stores. -/
theorem c2_counterexample :
    bmSearchDyn (bmInitDyn (.holds (.vList [.vInt 1]))) (pstr "x") 12 =
      .error .attrError ∧
    sessRestoreDyn (.holds (.vStr (pstr "hi"))) = .error .attrError :=
  ⟨rfl, rfl⟩

/-- C2 amended: the store-backed operations are total when the loaded
bookmark/history store is a list of objects whose `title`/`url` fields are
strings (or falsy), and session `restore` is total when the loaded session
document is an object or falsy; `_save_json`-based writes and the
`DownloadManager` callbacks swallow every exception and are total by
construction. For well-formed JSON of an unexpected shape the original claim
fails (see the counterexample). -/
theorem c2_totality_amended (store : PyVal) (f : FileState)
    (h1 : goodStore store = true) (h2 : goodSessionFile f = true)
    (title url old newT newU now q : PStr) (limit : Nat) :
    exOk (bmAddDyn store title url now) = true ∧
    exOk (bmRemoveDyn store url) = true ∧
    exOk (bmUpdateDyn store old newT newU now) = true ∧
    exOk (bmExistsDyn store url) = true ∧
    exOk (bmSearchDyn store q limit) = true ∧
    exOk (histAddDyn store title url now) = true ∧
    exOk (histSearchDyn store q limit) = true ∧
    exOk (sessRestoreDyn f) = true := by
  have hrestore : exOk (sessRestoreDyn f) = true := by
    unfold sessRestoreDyn
    unfold goodSessionFile at h2
    cases hv : loadJson f .vNone with
    | vDict kvs =>
      by_cases ht : pyTruthy (.vDict kvs) = true
      · rw [if_pos ht]; rfl
      · rw [if_neg ht]; rfl
    | vNone => rfl
    | vBool b =>
      rw [hv] at h2
      have hf : pyTruthy (.vBool b) = false := by
        rw [← Bool.not_eq_true']
        exact h2
      simp [hf, exOk]
    | vInt n =>
      rw [hv] at h2
      have hf : pyTruthy (.vInt n) = false := by
        rw [← Bool.not_eq_true']
        exact h2
      simp [hf, exOk]
    | vStr s =>
      rw [hv] at h2
      have hf : pyTruthy (.vStr s) = false := by
        rw [← Bool.not_eq_true']
        exact h2
      simp [hf, exOk]
    | vList l =>
      rw [hv] at h2
      have hf : pyTruthy (.vList l) = false := by
        rw [← Bool.not_eq_true']
        exact h2
      simp [hf, exOk]
  obtain ⟨items, hst, hall⟩ : ∃ items, store = .vList items ∧ items.all goodEntry = true := by
    cases store with
    | vList l => exact ⟨l, rfl, by simpa [goodStore] using h1⟩
    | vNone => simp [goodStore] at h1
    | vBool b => simp [goodStore] at h1
    | vInt n => simp [goodStore] at h1
    | vStr s => simp [goodStore] at h1
    | vDict kvs => simp [goodStore] at h1
  subst hst
  refine ⟨?_, ?_, ?_, ?_, ?_, rfl, ?_, hrestore⟩
  · by_cases hu : url = []
    · simp [bmAddDyn, hu, exOk]
    · obtain ⟨b, hb⟩ := pyAnyUrlEq_okE (normalizeUrl url) items hall
      have hstep : bmAddDyn (.vList items) title url now =
          (pyAnyUrlEq items (normalizeUrl url)).bind (fun dup =>
            if dup then .ok (.vList items)
            else .ok (.vList (PyVal.vDict
              [(pstr "title", .vStr (if title = [] then normalizeUrl url else title)),
               (pstr "url", .vStr (normalizeUrl url)),
               (pstr "created", .vStr now)] :: items))) := by
        unfold bmAddDyn
        rw [if_neg hu]
        rfl
      rw [hstep, hb]
      cases b <;> rfl
  · obtain ⟨kept, hk⟩ := bmFilterNeq_okE url items hall
    have hstep : bmRemoveDyn (.vList items) url =
        (bmFilterNeq items url).bind (fun kept => .ok (.vList kept)) := rfl
    rw [hstep, hk, exBindE_ok]
    rfl
  · obtain ⟨out, ho⟩ := bmUpdLoop_okE old newT newU now items hall
    have hstep : bmUpdateDyn (.vList items) old newT newU now =
        (bmUpdLoop items old newT newU now).bind (fun l' => .ok (.vList l')) := rfl
    rw [hstep, ho, exBindE_ok]
    rfl
  · by_cases hu : url = []
    · simp [bmExistsDyn, hu, exOk]
    · obtain ⟨b, hb⟩ := pyAnyUrlEq_okE url items hall
      have hstep : bmExistsDyn (.vList items) url =
          if url = [] then .ok false else pyAnyUrlEq items url := by
        unfold bmExistsDyn
        by_cases hu' : url = []
        · rw [if_pos hu', if_pos hu']
        · rw [if_neg hu', if_neg hu']
          rfl
      rw [hstep, if_neg hu, hb]
      rfl
  · have hstep : bmSearchDyn (.vList items) q limit =
        if pyLower q = [] then pySliceTake (.vList items) limit
        else (bmScoreLoopDyn (pyLower q) items).bind (fun scored =>
          .ok (.vList (((sortDesc scored).map Prod.snd).take limit))) := by
      unfold bmSearchDyn
      by_cases hq : pyLower q = []
      · rw [if_pos hq, if_pos hq]
      · rw [if_neg hq, if_neg hq]
        rfl
    by_cases hq : pyLower q = []
    · rw [hstep, if_pos hq]; rfl
    · obtain ⟨out, ho⟩ := bmScoreLoopDyn_okE (pyLower q) items hall
      rw [hstep, if_neg hq, ho, exBindE_ok]
      rfl
  · have hstep : histSearchDyn (.vList items) q limit =
        if pyLower q = [] then pySliceTake (.vList items) limit
        else (histScanLoopDyn (pyLower q) limit items 0 []).bind (fun res =>
          .ok (.vList (res.take limit))) := by
      unfold histSearchDyn
      by_cases hq : pyLower q = []
      · rw [if_pos hq, if_pos hq]
      · rw [if_neg hq, if_neg hq]
        rfl
    by_cases hq : pyLower q = []
    · rw [hstep, if_pos hq]; rfl
    · obtain ⟨out, ho⟩ := histScanLoopDyn_okE (pyLower q) limit items hall 0 []
      rw [hstep, if_neg hq, ho, exBindE_ok]
      rfl

/-- Witness for `c2_totality_amended` on a concrete well-shaped store and
session file. -/
theorem c2_witness :
    goodStore (.vList [.vDict [(pstr "title", .vStr (pstr "T")),
      (pstr "url", .vStr (pstr "http://a")), (pstr "created", .vStr (pstr "c"))]]) = true ∧
    goodSessionFile (.holds (.vDict [(pstr "tabs", .vList []),
      (pstr "saved", .vStr (pstr "s"))])) = true ∧
    (exOk (bmAddDyn (.vList [.vDict [(pstr "title", .vStr (pstr "T")),
        (pstr "url", .vStr (pstr "http://a")), (pstr "created", .vStr (pstr "c"))]])
        (pstr "t") (pstr "b.c") (pstr "n")) = true ∧
     exOk (bmRemoveDyn (.vList [.vDict [(pstr "title", .vStr (pstr "T")),
        (pstr "url", .vStr (pstr "http://a")), (pstr "created", .vStr (pstr "c"))]])
        (pstr "b.c")) = true ∧
     exOk (bmUpdateDyn (.vList [.vDict [(pstr "title", .vStr (pstr "T")),
        (pstr "url", .vStr (pstr "http://a")), (pstr "created", .vStr (pstr "c"))]])
        (pstr "http://a") (pstr "t2") (pstr "u2") (pstr "n")) = true ∧
     exOk (bmExistsDyn (.vList [.vDict [(pstr "title", .vStr (pstr "T")),
        (pstr "url", .vStr (pstr "http://a")), (pstr "created", .vStr (pstr "c"))]])
        (pstr "b.c")) = true ∧
     exOk (bmSearchDyn (.vList [.vDict [(pstr "title", .vStr (pstr "T")),
        (pstr "url", .vStr (pstr "http://a")), (pstr "created", .vStr (pstr "c"))]])
        (pstr "q") 12) = true ∧
     exOk (histAddDyn (.vList [.vDict [(pstr "title", .vStr (pstr "T")),
        (pstr "url", .vStr (pstr "http://a")), (pstr "created", .vStr (pstr "c"))]])
        (pstr "t") (pstr "b.c") (pstr "n")) = true ∧
     exOk (histSearchDyn (.vList [.vDict [(pstr "title", .vStr (pstr "T")),
        (pstr "url", .vStr (pstr "http://a")), (pstr "created", .vStr (pstr "c"))]])
        (pstr "q") 12) = true ∧
     exOk (sessRestoreDyn (.holds (.vDict [(pstr "tabs", .vList []),
        (pstr "saved", .vStr (pstr "s"))]))) = true) :=
  ⟨by decide, by decide,
    c2_totality_amended _ _ (by decide) (by decide)
      (pstr "t") (pstr "b.c") (pstr "http://a") (pstr "t2") (pstr "u2") (pstr "n") (pstr "q") 12⟩

/-- C4 counterexample: for the empty url, `add` returns immediately, so two
`add("t", "")` calls on the empty store leave zero entries — not exactly one
entry with the (normalized) url — refuting the claim's unrestricted
universal quantification over `url`. -/
theorem c4_counterexample :
    bmAdd (bmAdd [] (pstr "t") [] (pstr "n1")) (pstr "t") [] (pstr "n2") = [] ∧
    countUrl (bmAdd (bmAdd [] (pstr "t") [] (pstr "n1")) (pstr "t") [] (pstr "n2"))
      (normalizeUrl []) = 0 := by
  constructor
  · rfl
  · rfl

/-- C4 amended: for every non-empty `url` and any store holding at most one
entry with the normalized url (in particular any store satisfying the
uniqueness invariant), calling `add(t, url)` twice leaves the store with
exactly one entry whose url is the normalized form of `url`, and the second
call is a no-op; the normalization (`http://` prefix for scheme-less
host-like strings) is applied before the duplicate test. -/
theorem c4_add_idempotent_amended (l : List Bookmark) (t url n1 n2 : PStr)
    (hu : url ≠ []) (hcount : countUrl l (normalizeUrl url) ≤ 1) :
    bmAdd (bmAdd l t url n1) t url n2 = bmAdd l t url n1 ∧
    countUrl (bmAdd (bmAdd l t url n1) t url n2) (normalizeUrl url) = 1 := by
  by_cases hany : (l.any fun b => b.url == normalizeUrl url) = true
  · have h1 : bmAdd l t url n1 = l := by
      unfold bmAdd
      rw [if_neg hu, if_pos hany]
    have h2 : bmAdd l t url n2 = l := by
      unfold bmAdd
      rw [if_neg hu, if_pos hany]
    refine ⟨by rw [h1, h2], ?_⟩
    rw [h1, h2]
    rcases List.any_eq_true.mp hany with ⟨b, hbl, hbu⟩
    have hpos : 0 < countUrl l (normalizeUrl url) := by
      unfold countUrl
      rw [List.length_pos]
      intro hnil
      have := List.filter_eq_nil_iff.mp hnil b hbl
      simp [hbu] at this
    omega
  · have h1 : bmAdd l t url n1 =
        ⟨if t = [] then normalizeUrl url else t, normalizeUrl url, n1, none⟩ :: l := by
      unfold bmAdd
      rw [if_neg hu, if_neg hany]
    have hany2 : (((⟨if t = [] then normalizeUrl url else t, normalizeUrl url, n1, none⟩ :
        Bookmark) :: l).any fun b => b.url == normalizeUrl url) = true := by
      simp
    have h2 : bmAdd (⟨if t = [] then normalizeUrl url else t, normalizeUrl url, n1, none⟩ :: l)
        t url n2 = ⟨if t = [] then normalizeUrl url else t, normalizeUrl url, n1, none⟩ :: l := by
      unfold bmAdd
      rw [if_neg hu, if_pos hany2]
    have hmain : bmAdd (bmAdd l t url n1) t url n2 = bmAdd l t url n1 := by
      rw [h1, h2]
    refine ⟨hmain, ?_⟩
    rw [hmain, h1]
    have hall : ∀ x ∈ l, ¬ x.url = normalizeUrl url := by simpa using hany
    have hzero : countUrl l (normalizeUrl url) = 0 := by
      unfold countUrl
      rw [List.length_eq_zero, List.filter_eq_nil_iff]
      intro b hbl
      simpa using hall b hbl
    unfold countUrl at hzero ⊢
    rw [List.filter_cons_of_pos (by simp), List.length_cons, hzero]

/-- Witness for `c4_add_idempotent_amended` with the scheme-less url
`example.com`, normalized to `http://example.com`, on the empty store. -/
theorem c4_witness :
    (pstr "example.com" ≠ ([] : PStr)) ∧
    countUrl [] (normalizeUrl (pstr "example.com")) ≤ 1 ∧
    (bmAdd (bmAdd [] (pstr "t") (pstr "example.com") (pstr "n1"))
        (pstr "t") (pstr "example.com") (pstr "n2") =
      bmAdd [] (pstr "t") (pstr "example.com") (pstr "n1") ∧
     countUrl (bmAdd (bmAdd [] (pstr "t") (pstr "example.com") (pstr "n1"))
        (pstr "t") (pstr "example.com") (pstr "n2")) (normalizeUrl (pstr "example.com")) = 1) :=
  ⟨by decide, by decide,
    c4_add_idempotent_amended [] (pstr "t") (pstr "example.com") (pstr "n1") (pstr "n2")
      (by decide) (by decide)⟩

/-- Inserting an element whose score is not below every listed score puts it
in front. -/
theorem insertDesc_front {α : Type} (x : Nat × α) (l : List (Nat × α))
    (h : ∀ y ∈ l, y.1 ≤ x.1) : insertDescAux x l = x :: l := by
  cases l with
  | nil => rfl
  | cons y ys =>
    simp only [insertDescAux]
    rw [if_neg (Nat.not_lt.mpr (h y (List.mem_cons_self y ys)))]

/-- Inserting an element passes every prefix element with a strictly greater
score. -/
theorem insertDesc_skip {α : Type} (x : Nat × α) :
    ∀ l1 l2 : List (Nat × α), (∀ y ∈ l1, x.1 < y.1) →
      insertDescAux x (l1 ++ l2) = l1 ++ insertDescAux x l2 := by
  intro l1
  induction l1 with
  | nil => intro l2 _; rfl
  | cons y ys ih =>
    intro l2 h
    rw [List.cons_append]
    simp only [insertDescAux]
    rw [if_pos (h y (List.mem_cons_self y ys)), ih l2 (fun z hz => h z (List.mem_cons_of_mem y hz)),
      List.cons_append]

/-- The stable descending sort of a list whose scores all lie in `{1, 2, 3}`
is the concatenation of its score-3, score-2 and score-1 sublists, each in
original order. -/
theorem sortDesc_bucket {α : Type} :
    ∀ l : List (Nat × α), (∀ y ∈ l, y.1 = 1 ∨ y.1 = 2 ∨ y.1 = 3) →
    sortDesc l = l.filter (fun p => p.1 == 3) ++ l.filter (fun p => p.1 == 2) ++
      l.filter (fun p => p.1 == 1) := by
  intro l
  induction l with
  | nil => intro _; rfl
  | cons x xs ih =>
    intro h
    have hx := h x (List.mem_cons_self x xs)
    have hsort : sortDesc (x :: xs) = insertDescAux x (sortDesc xs) := rfl
    rw [hsort, ih (fun y hy => h y (List.mem_cons_of_mem x hy))]
    have hA : ∀ y ∈ xs.filter (fun p => p.1 == 3), y.1 = 3 := fun y hy => by
      simpa using (List.mem_filter.mp hy).2
    have hB : ∀ y ∈ xs.filter (fun p => p.1 == 2), y.1 = 2 := fun y hy => by
      simpa using (List.mem_filter.mp hy).2
    have hC : ∀ y ∈ xs.filter (fun p => p.1 == 1), y.1 = 1 := fun y hy => by
      simpa using (List.mem_filter.mp hy).2
    rcases hx with h1 | h2 | h3
    · rw [insertDesc_skip x _ _ (fun y hy => by
        rcases List.mem_append.mp hy with hy | hy
        · rw [h1, hA y hy]; omega
        · rw [h1, hB y hy]; omega)]
      rw [insertDesc_front x _ (fun y hy => by rw [h1, hC y hy])]
      rw [List.filter_cons_of_neg (by simp [h1]), List.filter_cons_of_neg (by simp [h1]),
        List.filter_cons_of_pos (by simp [h1])]
    · rw [List.append_assoc]
      rw [insertDesc_skip x _ _ (fun y hy => by rw [h2, hA y hy]; omega)]
      rw [insertDesc_front x _ (fun y hy => by
        rcases List.mem_append.mp hy with hy | hy
        · rw [h2, hB y hy]
        · rw [h2, hC y hy]; omega)]
      rw [List.filter_cons_of_neg (by simp [h2]), List.filter_cons_of_pos (by simp [h2]),
        List.filter_cons_of_neg (by simp [h2])]
      simp [List.append_assoc]
    · rw [insertDesc_front x _ (fun y hy => by
        rcases List.mem_append.mp hy with hy | hy
        · rcases List.mem_append.mp hy with hy | hy
          · rw [h3, hA y hy]
          · rw [h3, hB y hy]; omega
        · rw [h3, hC y hy]; omega)]
      rw [List.filter_cons_of_pos (by simp [h3]), List.filter_cons_of_neg (by simp [h3]),
        List.filter_cons_of_neg (by simp [h3])]
      simp [List.append_assoc]

/-- A bookmark's query score is one of 0, 1, 2, 3. -/
theorem bmScore_cases (ql : PStr) (b : Bookmark) :
    bmScore ql b = 0 ∨ bmScore ql b = 1 ∨ bmScore ql b = 2 ∨ bmScore ql b = 3 := by
  unfold bmScore
  by_cases h1 : containsSeq ql (pyLower b.title) = true <;>
    by_cases h2 : containsSeq ql (pyLower b.url) = true <;>
      simp [h1, h2]

/-- The score-`k` slice of the collected scored pairs is the score-`k` slice
of the store, tagged with its scores. -/
theorem scored_filter_map (ql : PStr) (k : Nat) (hk : k ≠ 0) :
    ∀ l : List Bookmark,
      ((l.filterMap (fun b =>
        if bmScore ql b ≠ 0 then some (bmScore ql b, b) else none)).filter
          (fun p => p.1 == k)) =
      (l.filter (fun b => bmScore ql b == k)).map (fun b => (bmScore ql b, b)) := by
  intro l
  induction l with
  | nil => rfl
  | cons b xs ih =>
    simp only [List.filterMap_cons, List.filter_cons]
    by_cases h0 : bmScore ql b ≠ 0
    · rw [if_pos h0]
      by_cases hbk : (bmScore ql b == k) = true
      · simp only [List.filter_cons, hbk, if_pos, ih]
        rw [List.map_cons]
      · have hbk' : (bmScore ql b == k) = false := by simpa using hbk
        simp only [List.filter_cons, hbk', ih]
        simp
    · have h0' : bmScore ql b = 0 := by simpa using h0
      rw [if_neg h0]
      have hbk' : (bmScore ql b == k) = false := by simp [h0']; omega
      simp only [hbk', ih]
      simp

/-- C5: `BookmarkManager.search` coincides with the specification's reference
search on every store, query and limit — empty query: first `limit` entries
in store order; non-empty query: exactly the entries scoring
`2×(query in title) + 1×(query in url) > 0`, in descending score order with
ties in store order, truncated to `limit` — and on the spec's example store
`search("apple")` returns Apple (title match, score 2) before Banana (url
match, score 1). -/
theorem c5_search_matches_reference :
    (∀ (l : List Bookmark) (q : PStr) (limit : Nat), bmSearch l q limit = bmSearchSpec l q limit) ∧
    bmSearch [⟨pstr "Apple", pstr "a.com", pstr "c", none⟩,
        ⟨pstr "Banana", pstr "apple.net", pstr "c", none⟩] (pstr "apple") 12 =
      [⟨pstr "Apple", pstr "a.com", pstr "c", none⟩,
        ⟨pstr "Banana", pstr "apple.net", pstr "c", none⟩] := by
  constructor
  · intro l q limit
    unfold bmSearch bmSearchSpec
    by_cases hq : q = []
    · rw [if_pos (by rw [hq]; rfl), if_pos hq]
    · have hql : pyLower q ≠ [] := by simpa [pyLower, List.map_eq_nil_iff] using hq
      rw [if_neg hql, if_neg hq]
      have hmem : ∀ y ∈ l.filterMap (fun b =>
          if bmScore (pyLower q) b ≠ 0 then some (bmScore (pyLower q) b, b) else none),
          y.1 = 1 ∨ y.1 = 2 ∨ y.1 = 3 := by
        intro y hy
        rcases List.mem_filterMap.mp hy with ⟨b, _, hfb⟩
        by_cases h0 : bmScore (pyLower q) b ≠ 0
        · rw [if_pos h0] at hfb
          rcases bmScore_cases (pyLower q) b with h | h | h | h
          · exact absurd h h0
          · exact Or.inl (by rw [← Option.some_inj.mp hfb]; exact h)
          · exact Or.inr (Or.inl (by rw [← Option.some_inj.mp hfb]; exact h))
          · exact Or.inr (Or.inr (by rw [← Option.some_inj.mp hfb]; exact h))
        · rw [if_neg h0] at hfb
          exact absurd hfb (by simp)
      rw [sortDesc_bucket _ hmem, List.map_append, List.map_append,
        scored_filter_map (pyLower q) 3 (by omega) l,
        scored_filter_map (pyLower q) 2 (by omega) l,
        scored_filter_map (pyLower q) 1 (by omega) l,
        List.map_map, List.map_map, List.map_map]
      have hid : (Prod.snd ∘ fun b : Bookmark => (bmScore (pyLower q) b, b)) = id := rfl
      rw [hid, List.map_id, List.map_id, List.map_id]
      have hff : ∀ k : Nat, k ≠ 0 →
          (l.filter (fun b => bmScore (pyLower q) b != 0)).filter
            (fun b => bmScore (pyLower q) b == k) =
          l.filter (fun b => bmScore (pyLower q) b == k) := by
        intro k hk
        rw [List.filter_filter]
        refine List.filter_congr (fun b _ => ?_)
        by_cases hbk : (bmScore (pyLower q) b == k) = true
        · have hb : bmScore (pyLower q) b = k := by simpa using hbk
          simp [hbk, hb, hk]
        · simp [hbk]
      rw [hff 3 (by omega), hff 2 (by omega), hff 1 (by omega)]
  · decide

/-- Run of the debounce from an armed state through a burst: when every event
arrives before the pending deadline, no intermediate fire happens and the
single final fire uses the last recorded text (the armed pending text if no
further event occurs). -/
theorem runOmni_burst (evs : List (Nat × PStr)) :
    ∀ (t0 : Nat) (p : PStr), burstChain t0 evs = true →
      runOmni ⟨p, some (t0 + 220)⟩ evs =
      [match evs.getLast? with
       | none => p
       | some e => pyStrip e.2] := by
  induction evs with
  | nil => intro t0 p _; rfl
  | cons e rest ih =>
    intro t0 p hb
    obtain ⟨t', x⟩ := e
    have hb' : (t' < t0 + 220) ∧ burstChain t' rest = true := by
      simpa [burstChain] using hb
    have hnof : ¬ (t0 + 220 ≤ t') := by omega
    show (if t0 + 220 ≤ t' then
        p :: runOmni ⟨pyStrip x, some (t' + 220)⟩ rest
      else runOmni ⟨pyStrip x, some (t' + 220)⟩ rest) = _
    rw [if_neg hnof, ih t' (pyStrip x) hb'.2]
    cases rest with
    | nil => rfl
    | cons r rs =>
      rw [List.getLast?_cons_cons]
      cases hgl : (r :: rs).getLast? with
      | none => exact absurd hgl (by simp [List.getLast?_eq_none_iff])
      | some e => rfl

/-- C8: debounce coalescing. In the step model (each input change records the
stripped text and re-arms the single 220ms single-shot timer; a fire runs one
suggestion population on the recorded text), a burst starting at any event
whose successive events each arrive strictly less than 220ms after the
previous one produces exactly one population, and it runs with the text of
the last change — never with a superseded text. -/
theorem c8_debounce_burst (t0 : Nat) (x0 : PStr) (evs : List (Nat × PStr))
    (hb : burstChain t0 evs = true) :
    runOmni omniIdle ((t0, x0) :: evs) = [pyStrip ((evs.getLastD (t0, x0)).2)] := by
  show runOmni ⟨pyStrip x0, some (t0 + 220)⟩ evs = _
  rw [runOmni_burst evs t0 (pyStrip x0) hb, List.getLastD_eq_getLast?]
  cases evs.getLast? <;> rfl

/-- Witness for `c8_debounce_burst`: the spec's three-keystroke burst
`"a"`, `"ap"`, `"app"` at 50ms spacing populates once, with `"app"`. -/
theorem c8_witness :
    burstChain 0 [(50, pstr "ap"), (100, pstr "app")] = true ∧
    runOmni omniIdle [(0, pstr "a"), (50, pstr "ap"), (100, pstr "app")] = [pstr "app"] := by
  refine ⟨by decide, ?_⟩
  rw [c8_debounce_burst 0 (pstr "a") [(50, pstr "ap"), (100, pstr "app")] (by decide)]
  decide

/-- C9: session round-trip. For every ordered list of tab url strings and any
timestamp, restoring from a file that holds exactly what `save` wrote returns
the same urls in the same order. -/
theorem c9_session_roundtrip (tabs : List PStr) (now : PStr) :
    sessRestoreDyn (.holds (sessSave tabs now)) = .ok (.vList (tabs.map .vStr)) := rfl

/-- C10: `cleanup_finished` removes exactly the finished records: the result
is a subsequence of the active list (relative order of survivors preserved)
and a record value occurs in it exactly when it is an unfinished record of
the list — in particular every surviving record is one of the original record
values, all fields (item, dest, progress, finished) unchanged, and a record
on which `_finish` ran is not among the survivors. -/
theorem c10_cleanup_finished {Item : Type} (l : List (DownloadRecord Item)) :
    List.Sublist (cleanupFinished l) l ∧
    (∀ d : DownloadRecord Item, d ∈ cleanupFinished l ↔ d ∈ l ∧ d.finished = false) ∧
    (∀ d : DownloadRecord Item, dmFinish d ∉ cleanupFinished l) := by
  refine ⟨List.filter_sublist l, fun d => ?_, fun d hmem => ?_⟩
  · simp [cleanupFinished, List.mem_filter]
  · have h := (List.mem_filter.mp hmem).2
    simp [dmFinish] at h
